import Mathlib

/-!
Verification of the option-ranking engine of fitbert (src/fitbert/fitb.py).

The Python code is shallowly embedded: Python strings are Lean Strings and
every Python primitive the ranking code uses (str.split with no argument,
str.split(sep), str.strip, str.replace, sep.join, list slicing, zip of
several lists, stable sorting with reverse=True, first-occurrence
deduplication) is defined below on character lists by structural recursion,
so that every definition evaluates inside the kernel.  Floating point scores
are modelled as rationals and the external masked-language model together
with its tokenizer and softmax is abstracted as an Oracle: a deterministic
probability function, as specified for the external collaborator in the
specification.
-/

/-- Python str.split() step: a whitespace character opens a new (possibly
empty) word group, any other character is prepended to the current first
group.  Empty groups are filtered away afterwards. -/
def wsFoldStep (c : Char) (acc : List (List Char)) : List (List Char) :=
  if c.isWhitespace then [] :: acc
  else
    match acc with
    | [] => [[c]]
    | w :: ws => (c :: w) :: ws

/-- Python str.split() on a character list: maximal runs of non-whitespace
characters, in order. -/
def wsWords (l : List Char) : List (List Char) :=
  (l.foldr wsFoldStep []).filter (fun w => !w.isEmpty)

/-- Python s.split() with no separator argument. -/
def pySplitWs (s : String) : List String :=
  (wsWords s.data).map (fun w => ⟨w⟩)

/-- Python str.strip() on a character list: drop leading and trailing
whitespace. -/
def stripChars (l : List Char) : List Char :=
  ((l.dropWhile Char.isWhitespace).reverse.dropWhile Char.isWhitespace).reverse

/-- Python s.strip(). -/
def pyStrip (s : String) : String := ⟨stripChars s.data⟩

/-- Python sep.join(pieces): pieces interleaved with the separator; the empty
list gives the empty string. -/
def pyJoin (sep : String) : List String → String
  | [] => ""
  | [x] => x
  | x :: xs => x ++ sep ++ pyJoin sep xs

/-- One fuelled step of Python s.split(sep) for a non-empty separator: cut at
every non-overlapping occurrence of sep, scanning left to right.  The fuel
starts at the length of the scanned list, which the scan never exceeds. -/
def splitOnGo (sep : List Char) : Nat → List Char → List (List Char)
  | _, [] => [[]]
  | 0, l => [l]
  | fuel + 1, c :: cs =>
    if sep.isPrefixOf (c :: cs) then
      [] :: splitOnGo sep fuel (List.drop sep.length (c :: cs))
    else
      match splitOnGo sep fuel cs with
      | [] => [[c]]
      | p :: ps => (c :: p) :: ps

/-- Python s.split(sep) for a non-empty separator sep. -/
def pySplitOn (s sep : String) : List String :=
  if sep.data.isEmpty then [s]
  else (splitOnGo sep.data s.data.length s.data).map (fun l => ⟨l⟩)

/-- Python s.replace(old, new) for a non-empty pattern old, via the standard
identity replace(s, old, new) = new.join(s.split(old)). -/
def pyReplace (s old new : String) : String :=
  pyJoin new (pySplitOn s old)

/-- First-occurrence deduplication with an accumulator of already seen
elements. -/
def distinctGo (seen : List String) : List String → List String
  | [] => []
  | x :: xs => if x ∈ seen then distinctGo seen xs else x :: distinctGo (x :: seen) xs

/-- seq(options).distinct(): the distinct elements of the list.  The order is
modelled as first-occurrence order. -/
def pyDistinct (xs : List String) : List String := distinctGo [] xs

/-- Rows of zip(head, *rest): lock-step traversal that stops as soon as any
list is exhausted. -/
def zipStarGo : List String → List (List String) → List (List String)
  | [], _ => []
  | a :: as, rest =>
    if rest.all (fun r => !r.isEmpty) then
      (a :: rest.map (fun r => r.headD "")) :: zipStarGo as (rest.map List.tail)
    else []

/-- Python list(zip(*ls)): rows of the transpose, truncated at the shortest
list; zip of no lists is empty. -/
def zipStar : List (List String) → List (List String)
  | [] => []
  | l :: rest => zipStarGo l rest

/-- The sort used by both rankers: sorted(key=lambda x: x[0], reverse=True) of
(score, option) pairs.  Python sorted is stable; with reverse=True equal keys
keep their original relative order, which is exactly stable insertion sort
for the descending relation on first components. -/
def pySortedDesc (l : List (ℚ × String)) : List (ℚ × String) :=
  l.insertionSort (fun p q => q.1 ≤ p.1)

/-- Materialise a list of fallible lookups: some list when every element is
some, none as soon as one fails.  Models the IndexError a Python [0] raises
on an empty tokenization. -/
def optMapList (f : String → Option Nat) : List String → Option (List Nat)
  | [] => some []
  | x :: xs =>
    match f x, optMapList f xs with
    | some y, some ys => some (y :: ys)
    | _, _ => none

/-- The external masked-language-model collaborator: subword tokenizer,
vocabulary lookup and the composite of model inference and softmax.  predict
takes the batch of input id rows, a batch row index, a position in that row
and a vocabulary id, and returns the probability the model assigns to that
id at that position; it is a pure function, hence deterministic. -/
structure Oracle where
  tokenize : String → List String
  tokenToId : String → Nat
  predict : List (List Nat) → Nat → Nat → Nat → ℚ

/-- The FitBert class: its mask_token field and the injected oracle (model
plus tokenizer).  Device management and model loading are external. -/
structure FitBertT where
  oracle : Oracle
  mask_token : String := "***mask***"

namespace FitBertT

/-- fitb.py is_multi: true iff some option does not split into exactly one
whitespace token. -/
def is_multi (options : List String) : Bool :=
  options.any (fun x => (pySplitWs x).length != 1)

/-- fitb.py tokens_to_masked_ids: copy the tokens, overwrite position
mask_ind with the mask token, wrap with the boundary tokens and convert all
of it to vocabulary ids. -/
def tokens_to_masked_ids (fb : FitBertT) (tokens : List String) (mask_ind : Nat) : List Nat :=
  (("[CLS]" :: tokens.set mask_ind "[MASK]") ++ ["[SEP]"]).map fb.oracle.tokenToId

/-- fitb.py get_sentence_probability: tokenize the sentence, build one masked
id row per position, query the model once per row at the shifted masked
position for the true id of the token there, and reduce the per-position
probabilities by multiplication starting from 1. -/
def get_sentence_probability (fb : FitBertT) (sent : String) : ℚ :=
  let tokens := fb.oracle.tokenize sent
  let input_ids := tokens.enum.map (fun ix => fb.tokens_to_masked_ids tokens ix.1)
  let tokens_ids := tokens.map fb.oracle.tokenToId
  (tokens_ids.enum.map
    (fun ix => fb.oracle.predict input_ids ix.1 (ix.1 + 1) ix.2)).foldl (· * ·) 1

/-- fitb.py rank_single: split the masked sentence around the mask token
(exactly one occurrence, else the unpacking fails), build the padded token
sequence with the mask index recorded, take the first subword id of every
word (failing like the source does when a word tokenizes to nothing), score
each word by the probability of its first subword id at the mask index, and
stable-sort descending. -/
def rank_single (fb : FitBertT) (masked_sent : String) (words : List String) :
    Option (List String) :=
  match pySplitOn masked_sent fb.mask_token with
  | [pre, post] =>
    (optMapList (fun x => ((fb.oracle.tokenize x).map fb.oracle.tokenToId).head?) words).map
      (fun words_ids =>
        let target_idx := ("[CLS]" :: fb.oracle.tokenize pre).length
        let tokens := ("[CLS]" :: fb.oracle.tokenize pre) ++ ["[MASK]"]
          ++ fb.oracle.tokenize post ++ ["[SEP]"]
        let input_ids := tokens.map fb.oracle.tokenToId
        (pySortedDesc ((words_ids.map
          (fun x => fb.oracle.predict [input_ids] 0 target_idx x)).zip words)).map (·.2))
  | _ => none

/-- The multi-token score of one option: the pseudo-likelihood of the
sentence with the mask replaced by the option. -/
def scoreMulti (fb : FitBertT) (masked_sent x : String) : ℚ :=
  fb.get_sentence_probability (pyReplace masked_sent fb.mask_token x)

/-- fitb.py rank_multi: substitute each option for the mask, score the
resulting sentence by get_sentence_probability (the two chained maps of the
source fused into one), and stable-sort descending. -/
def rank_multi (fb : FitBertT) (masked_sent : String) (options : List String) :
    List String :=
  (pySortedDesc ((options.map (fun x => fb.scoreMulti masked_sent x)).zip options)).map (·.2)

end FitBertT

/-- fitb.py simplify_options, first local: every option split on
whitespace. -/
def optionsSplit (options : List String) : List (List String) :=
  options.map pySplitWs

/-- The common run extractor of simplify_options: rows of the lock-step
transpose are taken while all entries of the row are one distinct value, and
the shared token of each such row is collected. -/
def takeRun (tss : List (List String)) : List String :=
  ((zipStar tss).takeWhile (fun x => (pyDistinct x).length == 1)).map (fun x => x.headD "")

/-- fitb.py simplify_options local start: the common leading token run. -/
def startOf (options : List String) : List String :=
  takeRun (optionsSplit options)

/-- fitb.py simplify_options local options_split_reversed: each option with
the common prefix removed, reversed. -/
def optionsSplitReversed (options : List String) : List (List String) :=
  (optionsSplit options).map (fun x => (x.drop (startOf options).length).reverse)

/-- fitb.py simplify_options local end: the common leading run of the
reversed remainders, i.e. the common trailing run of the remainders, stored
back to front. -/
def endOf (options : List String) : List String :=
  takeRun (optionsSplitReversed options)

/-- fitb.py simplify_options local start_words. -/
def start_words (options : List String) : String := pyJoin " " (startOf options)

/-- fitb.py simplify_options local end_words: the trailing run reversed back
into natural order and joined. -/
def end_words (options : List String) : String := pyJoin " " (endOf options).reverse

/-- The token slice x[len(start) : len(x) - len(end)] of one option of the
list. -/
def midOf (options : List String) (o : String) : List String :=
  ((pySplitWs o).drop (startOf options).length).take
    ((pySplitWs o).length - (endOf options).length - (startOf options).length)

/-- fitb.py simplify_options last reassignment of options: the slice between
the consumed prefix and suffix, rejoined with single spaces, stripped. -/
def simplifiedOptions (options : List String) : List String :=
  (optionsSplit options).map (fun x =>
    pyStrip (pyJoin " " ((x.drop (startOf options).length).take
      (x.length - (endOf options).length - (startOf options).length))))

namespace FitBertT

/-- fitb.py simplify_options: the simplified options, the sentence with its
mask token replaced by start_words mask end_words (joined and stripped), and
the two affixes. -/
def simplify_options (fb : FitBertT) (sent : String) (options : List String) :
    List String × String × String × String :=
  let sub := pyStrip (pyJoin " " [start_words options, fb.mask_token, end_words options])
  (simplifiedOptions options, pyReplace sent fb.mask_token sub,
    start_words options, end_words options)

/-- fitb.py rank: deduplicate, short-circuit a single distinct option,
simplify, dispatch on is_multi to one of the rankers, and reattach the
affixes around every ranked simplified option. -/
def rank (fb : FitBertT) (sent : String) (options : List String) :
    Option (List String) :=
  let options1 := pyDistinct options
  if options1.length = 1 then some options1
  else
    let s := fb.simplify_options sent options1
    (if is_multi s.1 then some (fb.rank_multi s.2.1 s.1) else fb.rank_single s.2.1 s.1).map
      (fun ranked => ranked.map (fun x => pyStrip (pyJoin " " [s.2.2.1, x, s.2.2.2])))

/-- fitb.py fitb: rank, take the first ranked element (an IndexError, i.e.
none, when the ranking is empty) and substitute it for the mask token in the
original sentence. -/
def fitb (fb : FitBertT) (sent : String) (options : List String) : Option String :=
  (fb.rank sent options).bind
    (fun ranked => ranked.head?.map (fun best => pyReplace sent fb.mask_token best))

/-- Instrumentation of rank: the number of forward model passes along the
control path rank takes.  The short-circuit makes none; the multi path calls
get_sentence_probability once per simplified option, each a single batched
forward pass; the single path makes one forward pass. -/
def rankBertCalls (fb : FitBertT) (sent : String) (options : List String) : Nat :=
  let options1 := pyDistinct options
  if options1.length = 1 then 0
  else
    let s := fb.simplify_options sent options1
    if is_multi s.1 then s.1.length else 1

end FitBertT

namespace FitBertT

/-- The score rank_single assigns to one word: the probability of the first
subword id of the word (0 as fallback of the fallible lookup) at the mask
index of the padded sequence built from the split of the masked sentence;
0 in the unreachable case that the split does not have exactly two
pieces. -/
def scoreSingle (fb : FitBertT) (masked_sent x : String) : ℚ :=
  match pySplitOn masked_sent fb.mask_token with
  | [pre, post] =>
    fb.oracle.predict
      [((("[CLS]" :: fb.oracle.tokenize pre) ++ ["[MASK]"] ++ fb.oracle.tokenize post
        ++ ["[SEP]"]).map fb.oracle.tokenToId)]
      0 ("[CLS]" :: fb.oracle.tokenize pre).length
      ((((fb.oracle.tokenize x).map fb.oracle.tokenToId).head?).getD 0)
  | _ => 0

end FitBertT

/-- A word of a whitespace split: non-empty and free of whitespace. -/
def IsWord (s : String) : Prop :=
  s.data ≠ [] ∧ ∀ c ∈ s.data, c.isWhitespace = false

/-- Specification-side predicate: p is a leading token run shared by all the
token lists (every list starts with p, so no list is shorter than p). -/
def leadsAll (p : List String) (tss : List (List String)) : Prop :=
  ∀ ts ∈ tss, ts.take p.length = p

/-- Specification-side predicate: p is a trailing token run shared by all the
token lists. -/
def trailsAll (p : List String) (tss : List (List String)) : Prop :=
  ∀ ts ∈ tss, ts.drop (ts.length - p.length) = p

/-- A small concrete oracle for concrete evaluations: whitespace
tokenization, string length as vocabulary id, constant probability 1. -/
def O₀ : Oracle :=
  ⟨pySplitWs, fun s => s.data.length, fun _ _ _ _ => 1⟩

/-- A concrete FitBert instance with the default mask token. -/
def fb₀ : FitBertT := ⟨O₀, "***mask***"⟩

example : pySplitWs "to  eat" = ["to", "eat"] := by decide
example : pyStrip "  a b  " = "a b" := by decide
example : pySplitOn "I want ***mask***." "***mask***" = ["I want ", "."] := by decide
example : pyReplace "I want ***mask***." "***mask***" "to ***mask***"
    = "I want to ***mask***." := by decide
example : pyDistinct ["a", "b", "a"] = ["a", "b"] := by decide
example : zipStar [["to", "eat"], ["to", "drink"]] = [["to", "to"], ["eat", "drink"]] := by decide
example : startOf ["to eat", "to drink"] = ["to"] := by decide
example : endOf ["to eat", "to drink"] = [] := by decide
example : simplifiedOptions ["to eat", "to drink"] = ["eat", "drink"] := by decide
example : fb₀.simplify_options "I want ***mask***." ["to eat", "to drink"]
    = (["eat", "drink"], "I want to ***mask***.", "to", "") := by decide
example : fb₀.rank "I want ***mask***." ["to eat", "to drink"]
    = some ["to eat", "to drink"] := by decide
example : fb₀.rank "I want ***mask***." ["to  eat", "to drink"]
    = some ["to eat", "to drink"] := by decide
example : fb₀.fitb "I want ***mask***." ["to eat", "to drink"]
    = some "I want to eat." := by decide
example : fb₀.rank "I want ***mask***." [] = some [] := by decide
example : fb₀.fitb "I want ***mask***." [] = none := by decide
example : FitBertT.is_multi [""] = true := by decide

lemma pyJoin_pair (sep a b : String) : pyJoin sep [a, b] = a ++ sep ++ b := rfl

lemma foldl_mul_eq_prod (l : List ℚ) (a : ℚ) : l.foldl (· * ·) a = a * l.prod := by
  induction l generalizing a with
  | nil => simp
  | cons x xs ih => simp [ih, List.prod_cons, mul_assoc]

lemma enum_map_eq_range_map {α β : Type} (l : List α) (d : α) (f : Nat × α → β) :
    l.enum.map f = (List.range l.length).map (fun i => f (i, l.getD i d)) := by
  apply List.ext_getElem
  · simp
  · intro i h1 h2
    simp only [List.getElem_map, List.getElem_enum, List.getElem_range]
    rw [List.getD_eq_getElem]

lemma optMapList_nil (f : String → Option Nat) : optMapList f [] = some [] := rfl

lemma rank_single_nil (fb : FitBertT) (ms : String) (r : List String)
    (h : fb.rank_single ms [] = some r) : r = [] := by
  unfold FitBertT.rank_single at h
  split at h
  · simp [optMapList, pySortedDesc, List.insertionSort] at h
    exact h
  · simp at h

/-- C2: when the sentence holds exactly one occurrence of the mask token
(its split has exactly two pieces) and rank returns a non-empty ranking,
fitb returns the original unsimplified sentence with that single placeholder
replaced by the top-ranked phrase. -/
theorem fitb_fills_top (fb : FitBertT) (sent : String) (options : List String)
    (pre post best : String) (rest : List String)
    (hsplit : pySplitOn sent fb.mask_token = [pre, post])
    (hrank : fb.rank sent options = some (best :: rest)) :
    fb.fitb sent options = some (pre ++ best ++ post) := by
  simp [FitBertT.fitb, hrank, pyReplace, hsplit, pyJoin_pair]

/-- C2 witness at a concrete oracle, sentence and option list. -/
theorem fitb_fills_top_witness :
    fb₀.fitb "I want ***mask***." ["to eat", "to drink"]
      = some ("I want " ++ "to eat" ++ ".") :=
  fitb_fills_top fb₀ "I want ***mask***." ["to eat", "to drink"]
    "I want " "." "to eat" ["to drink"] (by decide) (by decide)

/-- C4: get_sentence_probability is the plain product, over every position i
of the tokenization, of the probability the oracle assigns to the true
vocabulary id of token i, in the distribution predicted for batch row i at
position i + 1 (the position of the masked token once the boundary-start
token is prepended), where batch row j is the tokenization with token j
replaced by the mask and the boundary tokens added, converted to ids. -/
theorem get_sentence_probability_spec (fb : FitBertT) (sent : String) :
    fb.get_sentence_probability sent =
      ((List.range (fb.oracle.tokenize sent).length).map (fun i =>
        fb.oracle.predict
          ((List.range (fb.oracle.tokenize sent).length).map (fun j =>
            (("[CLS]" :: (fb.oracle.tokenize sent).set j "[MASK]") ++ ["[SEP]"]).map
              fb.oracle.tokenToId))
          i (i + 1)
          (fb.oracle.tokenToId ((fb.oracle.tokenize sent).getD i "")))).prod := by
  unfold FitBertT.get_sentence_probability FitBertT.tokens_to_masked_ids
  rw [foldl_mul_eq_prod, one_mul]
  rw [enum_map_eq_range_map ((fb.oracle.tokenize sent).map fb.oracle.tokenToId) 0]
  rw [enum_map_eq_range_map (fb.oracle.tokenize sent) ""]
  rw [List.length_map]
  congr 1
  apply List.map_congr_left
  intro i hi
  rw [List.mem_range] at hi
  have hids : ((fb.oracle.tokenize sent).map fb.oracle.tokenToId).getD i 0
      = fb.oracle.tokenToId ((fb.oracle.tokenize sent).getD i "") := by
    rw [List.getD_eq_getElem _ _ (by simpa using hi), List.getD_eq_getElem _ _ hi,
      List.getElem_map]
  simp only [hids]

/-- C5: when the deduplicated option list is exactly one word w, rank returns
[w] at once and the model is never invoked, for every sentence and every
FitBert instance. -/
theorem rank_short_circuit (fb : FitBertT) (sent : String)
    (options : List String) (w : String) (h : pyDistinct options = [w]) :
    fb.rank sent options = some [w] ∧ fb.rankBertCalls sent options = 0 := by
  constructor <;> simp [FitBertT.rank, FitBertT.rankBertCalls, h]

/-- C5 witness: a duplicated single option short-circuits with no model
call. -/
theorem rank_short_circuit_witness :
    fb₀.rank "She likes to ***mask***." ["run", "run"] = some ["run"]
    ∧ fb₀.rankBertCalls "She likes to ***mask***." ["run", "run"] = 0 :=
  rank_short_circuit fb₀ "She likes to ***mask***." ["run", "run"] "run" (by decide)

/-- C7 counterexample: the empty-string option splits into zero whitespace
tokens, so no option holds more than one token, yet is_multi returns
true. -/
theorem is_multi_counterexample :
    FitBertT.is_multi [""] = true ∧ ¬ 1 < (pySplitWs "").length := by decide

/-- C7 (amended): is_multi returns true iff at least one option does not
split into exactly one whitespace token (more than one, or zero). -/
theorem is_multi_spec (options : List String) :
    FitBertT.is_multi options = true ↔ ∃ o ∈ options, (pySplitWs o).length ≠ 1 := by
  simp [FitBertT.is_multi, List.any_eq_true]

/-- C8 counterexample: on an empty option list no error is raised before a
model call; instead rank runs the single-token path, performs one forward
pass of the model and returns the empty ranking, and only then does fitb
fail, with an index error modelled as none. -/
theorem rank_empty_counterexample :
    fb₀.rank "I want ***mask***." [] = some []
    ∧ fb₀.rankBertCalls "I want ***mask***." [] = 1
    ∧ fb₀.fitb "I want ***mask***." [] = none := by decide

/-- C8 (amended): when the deduplicated option list is empty and rank
returns at all, it returns the empty list after one model forward pass, and
fitb fails afterwards with none; no empty-option error exists before the
model call. -/
theorem rank_empty_behavior (fb : FitBertT) (sent : String) (options out : List String)
    (h0 : pyDistinct options = []) (h1 : fb.rank sent options = some out) :
    out = [] ∧ fb.fitb sent options = none ∧ fb.rankBertCalls sent options = 1 := by
  have hnil : options = [] := by
    cases options with
    | nil => rfl
    | cons x xs => simp [pyDistinct, distinctGo] at h0
  subst hnil
  have h2 : (fb.rank_single (fb.simplify_options sent []).2.1 []).map
      (fun ranked => ranked.map (fun x =>
        pyStrip (pyJoin " " [(fb.simplify_options sent []).2.2.1, x,
          (fb.simplify_options sent []).2.2.2]))) = some out := h1
  rcases Option.map_eq_some'.mp h2 with ⟨r, hr, hout⟩
  have hr0 : r = [] := rank_single_nil fb _ r hr
  subst hr0
  simp only [List.map_nil] at hout
  refine ⟨hout.symm, ?_, rfl⟩
  simp [FitBertT.fitb, h1, ← hout]

/-- C8 witness for the amended statement at a concrete instance. -/
theorem rank_empty_behavior_witness :
    ([] : List String) = [] ∧ fb₀.fitb "I want ***mask***." [] = none
    ∧ fb₀.rankBertCalls "I want ***mask***." [] = 1 :=
  rank_empty_behavior fb₀ "I want ***mask***." [] [] (by decide) (by decide)

/-- C10: the simplified option list of simplify_options is exactly the input
options mapped through their own token slice (so it has the same length as
the input, in order, the i-th simplified option derived from the i-th input
option). -/
theorem simplify_options_pointwise (fb : FitBertT) (sent : String)
    (options : List String) :
    (fb.simplify_options sent options).1
      = options.map (fun o => pyStrip (pyJoin " " (midOf options o)))
    ∧ (fb.simplify_options sent options).1.length = options.length := by
  constructor
  · simp [FitBertT.simplify_options, simplifiedOptions, optionsSplit, List.map_map,
      midOf, Function.comp]
  · simp [FitBertT.simplify_options, simplifiedOptions, optionsSplit]

lemma orderedInsert_filter_key (c : ℚ) (p : ℚ × String) (l : List (ℚ × String)) :
    (List.orderedInsert (fun a b => b.1 ≤ a.1) p l).filter (fun x => decide (x.1 = c))
      = if p.1 = c then p :: l.filter (fun x => decide (x.1 = c))
        else l.filter (fun x => decide (x.1 = c)) := by
  induction l with
  | nil =>
    by_cases hp : p.1 = c <;> simp [List.orderedInsert, hp]
  | cons q qs ih =>
    by_cases hle : q.1 ≤ p.1
    · rw [List.orderedInsert, if_pos hle]
      by_cases hp : p.1 = c <;> simp [List.filter_cons, hp]
    · rw [List.orderedInsert, if_neg hle]
      by_cases hp : p.1 = c
      · have hqc : ¬ q.1 = c := by
          rw [← hp]
          exact ne_of_gt (lt_of_not_le hle)
        simp [List.filter_cons, hqc, ih, hp]
      · simp [List.filter_cons, ih, hp]

lemma insertionSortDesc_filter_key (c : ℚ) (l : List (ℚ × String)) :
    ((l.insertionSort (fun p q => q.1 ≤ p.1)).filter (fun x => decide (x.1 = c)))
      = l.filter (fun x => decide (x.1 = c)) := by
  induction l with
  | nil => rfl
  | cons p l ih =>
    show (List.orderedInsert _ p (List.insertionSort _ l)).filter _ = _
    rw [orderedInsert_filter_key]
    by_cases hp : p.1 = c <;> simp [hp, List.filter_cons, ih]

lemma pySortedDesc_filter_key (c : ℚ) (l : List (ℚ × String)) :
    (pySortedDesc l).filter (fun x => decide (x.1 = c))
      = l.filter (fun x => decide (x.1 = c)) := by
  unfold pySortedDesc
  exact insertionSortDesc_filter_key c l

lemma zip_map_self (f : String → ℚ) (opts : List String) :
    (opts.map f).zip opts = opts.map (fun x => (f x, x)) := by
  induction opts with
  | nil => rfl
  | cons x xs ih => simp [ih]

lemma sorted_zip_filter (f : String → ℚ) (opts : List String) (c : ℚ) :
    ((pySortedDesc ((opts.map f).zip opts)).map (·.2)).filter
        (fun x => decide (f x = c))
      = opts.filter (fun x => decide (f x = c)) := by
  rw [zip_map_self]
  have hmem : ∀ q ∈ pySortedDesc (opts.map (fun x => (f x, x))), q.1 = f q.2 := by
    intro q hq
    have hq2 : q ∈ opts.map (fun x => (f x, x)) :=
      (List.perm_insertionSort _ _).mem_iff.mp hq
    rcases List.mem_map.mp hq2 with ⟨x, _, hx⟩
    rw [← hx]
  rw [List.filter_map]
  have hcongr : (pySortedDesc (opts.map (fun x => (f x, x)))).filter
        ((fun x => decide (f x = c)) ∘ (·.2))
      = (pySortedDesc (opts.map (fun x => (f x, x)))).filter
        (fun q => decide (q.1 = c)) := by
    apply List.filter_congr
    intro q hq
    simp [Function.comp, hmem q hq]
  rw [hcongr, pySortedDesc_filter_key, List.filter_map]
  have hcongr2 : (opts.filter ((fun q : ℚ × String => decide (q.1 = c))
        ∘ (fun x => (f x, x))))
      = opts.filter (fun x => decide (f x = c)) := by
    apply List.filter_congr
    intro x _
    rfl
  rw [hcongr2, List.map_map,
    show ((fun x : ℚ × String => x.2) ∘ fun x : String => (f x, x)) = id from rfl,
    List.map_id]

lemma optMapList_eq_some (f : String → Option Nat) (xs : List String) (ys : List Nat)
    (h : optMapList f xs = some ys) : ys = xs.map (fun x => (f x).getD 0) := by
  induction xs generalizing ys with
  | nil =>
    simp [optMapList] at h
    simp [h.symm]
  | cons x xs ih =>
    unfold optMapList at h
    cases hf : f x with
    | none => rw [hf] at h; simp at h
    | some y =>
      rw [hf] at h
      cases hrec : optMapList f xs with
      | none => rw [hrec] at h; simp at h
      | some ys2 =>
        rw [hrec] at h
        simp only [Option.some.injEq] at h
        rw [← h, List.map_cons, hf, ih ys2 hrec]
        rfl

/-- C9: ties are broken by input order in both rankers.  For any score value
c, the options scoring c appear in the output of rank_multi, and in any
output of rank_single, exactly as they appear in the input list: the
descending sort is stable. -/
theorem rank_sort_ties_stable (fb : FitBertT) (masked_sent : String)
    (options ranked : List String) (c : ℚ)
    (hsingle : fb.rank_single masked_sent options = some ranked) :
    (fb.rank_multi masked_sent options).filter
        (fun x => decide (fb.scoreMulti masked_sent x = c))
      = options.filter (fun x => decide (fb.scoreMulti masked_sent x = c))
    ∧ ranked.filter (fun x => decide (fb.scoreSingle masked_sent x = c))
      = options.filter (fun x => decide (fb.scoreSingle masked_sent x = c)) := by
  constructor
  · exact sorted_zip_filter (fb.scoreMulti masked_sent) options c
  · unfold FitBertT.rank_single at hsingle
    split at hsingle
    · next pre post heq =>
      rcases Option.map_eq_some'.mp hsingle with ⟨ids, hids, hranked⟩
      have hids2 := optMapList_eq_some _ _ _ hids
      have hscore : ids.map (fun x => fb.oracle.predict
            [((("[CLS]" :: fb.oracle.tokenize pre) ++ ["[MASK]"]
              ++ fb.oracle.tokenize post ++ ["[SEP]"]).map fb.oracle.tokenToId)]
            0 ("[CLS]" :: fb.oracle.tokenize pre).length x)
          = options.map (fun x => fb.scoreSingle masked_sent x) := by
        rw [hids2, List.map_map]
        apply List.map_congr_left
        intro x _
        simp only [Function.comp]
        unfold FitBertT.scoreSingle
        rw [heq]
      simp only [] at hranked
      rw [← hranked, hscore]
      exact sorted_zip_filter (fb.scoreSingle masked_sent) options c
    · simp at hsingle

/-- C9 witness at a concrete instance, where both rankers receive equal
scores everywhere and hence must return the input order. -/
theorem rank_sort_ties_stable_witness :
    ((fb₀.rank_multi "I want ***mask***." ["eat", "drink"]).filter
        (fun x => decide (fb₀.scoreMulti "I want ***mask***." x = 1))
      = (["eat", "drink"] : List String).filter
        (fun x => decide (fb₀.scoreMulti "I want ***mask***." x = 1)))
    ∧ ((["eat", "drink"] : List String).filter
        (fun x => decide (fb₀.scoreSingle "I want ***mask***." x = 1))
      = (["eat", "drink"] : List String).filter
        (fun x => decide (fb₀.scoreSingle "I want ***mask***." x = 1))) :=
  rank_sort_ties_stable fb₀ "I want ***mask***." ["eat", "drink"] ["eat", "drink"] 1
    (by decide)

lemma mem_distinctGo (x : String) (xs : List String) :
    ∀ seen, x ∈ distinctGo seen xs ↔ (x ∈ xs ∧ x ∉ seen) := by
  induction xs with
  | nil => intro seen; simp [distinctGo]
  | cons y ys ih =>
    intro seen
    unfold distinctGo
    by_cases hy : y ∈ seen
    · rw [if_pos hy, ih seen]
      constructor
      · rintro ⟨h1, h2⟩
        exact ⟨List.mem_cons_of_mem y h1, h2⟩
      · rintro ⟨h1, h2⟩
        rcases List.mem_cons.mp h1 with h1 | h1
        · exact absurd (h1 ▸ hy) h2
        · exact ⟨h1, h2⟩
    · rw [if_neg hy]
      constructor
      · intro h
        rcases List.mem_cons.mp h with h | h
        · exact ⟨h ▸ List.mem_cons_self x ys, h ▸ hy⟩
        · rcases (ih (y :: seen)).mp h with ⟨h1, h2⟩
          exact ⟨List.mem_cons_of_mem y h1,
            fun hx => h2 (List.mem_cons_of_mem y hx)⟩
      · rintro ⟨h1, h2⟩
        rcases List.mem_cons.mp h1 with h1 | h1
        · exact h1 ▸ List.mem_cons_self y _
        · by_cases hxy : x = y
          · exact hxy ▸ List.mem_cons_self y _
          · exact List.mem_cons_of_mem y ((ih (y :: seen)).mpr
              ⟨h1, fun hx => (List.mem_cons.mp hx).elim hxy h2⟩)

lemma mem_pyDistinct (x : String) (xs : List String) :
    x ∈ pyDistinct xs ↔ x ∈ xs := by
  rw [pyDistinct, mem_distinctGo]
  simp

lemma pyDistinct_len_one (xs : List String) (h : (pyDistinct xs).length = 1) :
    ∀ x ∈ xs, ∀ y ∈ xs, x = y := by
  obtain ⟨a, ha⟩ : ∃ a, pyDistinct xs = [a] := by
    cases hpd : pyDistinct xs with
    | nil => rw [hpd] at h; simp at h
    | cons b l =>
      rw [hpd] at h
      simp at h
      exact ⟨b, by rw [h]⟩
  intro x hx y hy
  have hx2 : x ∈ [a] := ha ▸ (mem_pyDistinct x xs).mpr hx
  have hy2 : y ∈ [a] := ha ▸ (mem_pyDistinct y xs).mpr hy
  simp at hx2 hy2
  rw [hx2, hy2]

lemma distinctGo_all_seen (xs : List String) :
    ∀ seen, (∀ x ∈ xs, x ∈ seen) → distinctGo seen xs = [] := by
  induction xs with
  | nil => intro seen _; rfl
  | cons y ys ih =>
    intro seen h
    unfold distinctGo
    rw [if_pos (h y (List.mem_cons_self y ys))]
    exact ih seen (fun x hx => h x (List.mem_cons_of_mem y hx))

lemma pyDistinct_allEq (a : String) (xs : List String) (hne : xs ≠ [])
    (h : ∀ x ∈ xs, x = a) : pyDistinct xs = [a] := by
  cases xs with
  | nil => exact absurd rfl hne
  | cons y ys =>
    have hy : y = a := h y (List.mem_cons_self y ys)
    subst hy
    unfold pyDistinct distinctGo
    rw [if_neg (List.not_mem_nil y)]
    rw [distinctGo_all_seen ys [y]
      (fun x hx => by rw [h x (List.mem_cons_of_mem y hx)]; exact List.mem_cons_self y [])]

lemma takeWhile_getD (p : List String → Bool) (l : List (List String)) :
    ∀ j, j < (l.takeWhile p).length →
      (l.takeWhile p).getD j [] = l.getD j [] ∧ p (l.getD j []) = true ∧ j < l.length := by
  induction l with
  | nil => intro j h; simp at h
  | cons a l ih =>
    intro j h
    cases hp : p a with
    | false => rw [List.takeWhile_cons, if_neg (by simp [hp])] at h; simp at h
    | true =>
      rw [List.takeWhile_cons, if_pos hp] at h ⊢
      cases j with
      | zero => exact ⟨rfl, by simpa using hp, by simp⟩
      | succ j =>
        simp only [List.length_cons, Nat.succ_lt_succ_iff] at h
        rcases ih j h with ⟨h1, h2, h3⟩
        exact ⟨by simpa using h1, by simpa using h2, by simpa using h3⟩

lemma le_takeWhile_length (p : List String → Bool) (l : List (List String)) :
    ∀ k, k ≤ l.length → (∀ j, j < k → p (l.getD j []) = true) →
      k ≤ (l.takeWhile p).length := by
  induction l with
  | nil => intro k hk _; simpa using hk
  | cons a l ih =>
    intro k hk h
    cases k with
    | zero => simp
    | succ k =>
      have ha : p a = true := by simpa using h 0 (Nat.succ_pos k)
      rw [List.takeWhile_cons, if_pos ha]
      simp only [List.length_cons, Nat.succ_le_succ_iff] at hk ⊢
      exact ih k hk (fun j hj => by simpa using h (j + 1) (Nat.succ_lt_succ hj))

lemma zipStarGo_getD (l : List String) :
    ∀ (rest : List (List String)) (j : Nat), j < (zipStarGo l rest).length →
      (zipStarGo l rest).getD j [] = l.getD j "" :: rest.map (fun r => r.getD j "")
      ∧ j < l.length ∧ ∀ r ∈ rest, j < r.length := by
  induction l with
  | nil => intro rest j h; simp [zipStarGo] at h
  | cons a as ih =>
    intro rest j h
    cases hall : rest.all (fun r => !r.isEmpty) with
    | false => rw [zipStarGo, if_neg (by simp [hall])] at h; simp at h
    | true =>
      have hne : ∀ r ∈ rest, r ≠ [] := by
        intro r hr
        have := (List.all_eq_true.mp hall) r hr
        simpa [List.isEmpty_iff] using this
      rw [zipStarGo, if_pos hall] at h ⊢
      cases j with
      | zero =>
        refine ⟨?_, by simp, fun r hr => List.length_pos.mpr (hne r hr)⟩
        simp only [List.getD_cons_zero]
        congr 1
        apply List.map_congr_left
        intro r _
        cases r <;> rfl
      | succ j =>
        simp only [List.length_cons, Nat.succ_lt_succ_iff] at h
        rcases ih (rest.map List.tail) j h with ⟨h1, h2, h3⟩
        refine ⟨?_, by simpa using h2, ?_⟩
        · simp only [List.getD_cons_succ, h1]
          congr 1
          rw [List.map_map]
          apply List.map_congr_left
          intro r _
          cases r <;> rfl
        · intro r hr
          have := h3 r.tail (List.mem_map_of_mem List.tail hr)
          rcases List.exists_cons_of_ne_nil (hne r hr) with ⟨x, xs, hx⟩
          subst hx
          simpa using Nat.succ_lt_succ this

lemma le_zipStarGo_length (k : Nat) :
    ∀ (l : List String) (rest : List (List String)), k ≤ l.length →
      (∀ r ∈ rest, k ≤ r.length) → k ≤ (zipStarGo l rest).length := by
  induction k with
  | zero => intro l rest _ _; simp
  | succ k ih =>
    intro l rest hl hrest
    cases l with
    | nil => simp at hl
    | cons a as =>
      have hall : rest.all (fun r => !r.isEmpty) = true := by
        rw [List.all_eq_true]
        intro r hr
        have := hrest r hr
        cases r with
        | nil => simp at this
        | cons x xs => simp
      rw [zipStarGo, if_pos hall]
      simp only [List.length_cons, Nat.succ_le_succ_iff] at hl ⊢
      refine ih as (rest.map List.tail) hl ?_
      intro r hr
      rcases List.mem_map.mp hr with ⟨r0, hr0, hr1⟩
      have := hrest r0 hr0
      cases r0 with
      | nil => simp at this
      | cons x xs => rw [← hr1]; simpa using this

lemma takeRun_elem (tss : List (List String)) (ts : List String) (hts : ts ∈ tss)
    (j : Nat) (hj : j < (takeRun tss).length) :
    j < ts.length ∧ ts.getD j "" = (takeRun tss).getD j "" := by
  cases tss with
  | nil => simp at hts
  | cons t rest =>
    have hj2 : j < ((zipStarGo t rest).takeWhile
        (fun x => (pyDistinct x).length == 1)).length := by
      simpa [takeRun, zipStar] using hj
    rcases takeWhile_getD _ _ j hj2 with ⟨h1, h2, h3⟩
    rcases zipStarGo_getD t rest j h3 with ⟨hrow, hjt, hjr⟩
    have hrowm : (zipStarGo t rest).getD j []
        = (t :: rest).map (fun r => r.getD j "") := by
      rw [hrow]; rfl
    have hlen1 : (pyDistinct ((t :: rest).map (fun r => r.getD j ""))).length = 1 := by
      have h2a := h2
      rw [hrowm] at h2a
      simpa using h2a
    have hall := pyDistinct_len_one _ hlen1
    have hmem1 : ts.getD j "" ∈ (t :: rest).map (fun r => r.getD j "") :=
      List.mem_map_of_mem (fun r => r.getD j "") hts
    have hmem2 : t.getD j "" ∈ (t :: rest).map (fun r => r.getD j "") := by
      simp
    have heq1 : ts.getD j "" = t.getD j "" := hall _ hmem1 _ hmem2
    have hjts : j < ts.length := by
      rcases List.mem_cons.mp hts with h | h
      · rw [h]; exact hjt
      · exact hjr ts h
    refine ⟨hjts, ?_⟩
    have htr : (takeRun (t :: rest)).getD j ""
        = (((zipStarGo t rest).takeWhile
            (fun x => (pyDistinct x).length == 1)).getD j []).headD "" := by
      show (((zipStarGo t rest).takeWhile
          (fun x => (pyDistinct x).length == 1)).map (fun x => x.headD "")).getD j "" = _
      rw [List.getD_eq_getElem _ _ (by simpa using hj2), List.getElem_map,
        List.getD_eq_getElem _ _ hj2]
    rw [htr, h1, hrow]
    simpa using heq1

lemma takeRun_take (tss : List (List String)) (ts : List String) (hts : ts ∈ tss) :
    (takeRun tss).length ≤ ts.length ∧ ts.take (takeRun tss).length = takeRun tss := by
  have hle : (takeRun tss).length ≤ ts.length := by
    by_cases h0 : (takeRun tss).length = 0
    · omega
    · have := (takeRun_elem tss ts hts ((takeRun tss).length - 1) (by omega)).1
      omega
  refine ⟨hle, ?_⟩
  apply List.ext_getElem
  · simp [List.length_take]
    omega
  · intro i h1 h2
    have h3 : i < (takeRun tss).length := h2
    rcases takeRun_elem tss ts hts i h3 with ⟨h4, h5⟩
    rw [List.getD_eq_getElem _ _ h4, List.getD_eq_getElem _ _ h3] at h5
    rw [List.getElem_take]
    exact h5

lemma takeRun_max (tss : List (List String)) (hne : tss ≠ []) (p : List String)
    (hp : leadsAll p tss) : p.length ≤ (takeRun tss).length := by
  cases tss with
  | nil => exact absurd rfl hne
  | cons t rest =>
    have hlen : ∀ r ∈ t :: rest, p.length ≤ r.length := by
      intro r hr
      have h1 := hp r hr
      have h2 : (r.take p.length).length = p.length := by rw [h1]
      simp [List.length_take] at h2
      omega
    have hrows : p.length ≤ (zipStarGo t rest).length :=
      le_zipStarGo_length p.length t rest (hlen t (List.mem_cons_self t rest))
        (fun r hr => hlen r (List.mem_cons_of_mem t hr))
    have hkey : p.length ≤ ((zipStarGo t rest).takeWhile
        (fun x => (pyDistinct x).length == 1)).length := by
      apply le_takeWhile_length _ _ p.length hrows
      intro j hj
      rcases zipStarGo_getD t rest j (lt_of_lt_of_le hj hrows) with ⟨hrow, _, _⟩
      rw [hrow]
      have key : ∀ r ∈ t :: rest, r.getD j "" = p.getD j "" := by
        intro r hr
        have h1 := hp r hr
        have h4 : j < r.length := lt_of_lt_of_le hj (hlen r hr)
        have h6 : (r.take p.length).getD j "" = p.getD j "" := by rw [h1]
        rw [List.getD_eq_getElem (r.take p.length) ""
            (by simp [List.length_take]; omega),
          List.getElem_take, ← List.getD_eq_getElem r "" h4] at h6
        exact h6
      have hall : ∀ x ∈ t.getD j "" :: rest.map (fun r => r.getD j ""),
          x = p.getD j "" := by
        intro x hx
        rcases List.mem_cons.mp hx with hx | hx
        · rw [hx]; exact key t (List.mem_cons_self t rest)
        · rcases List.mem_map.mp hx with ⟨r, hr, hrx⟩
          rw [← hrx]; exact key r (List.mem_cons_of_mem t hr)
      rw [show (t.getD j "" :: rest.map (fun r => r.getD j ""))
          = (t :: rest).map (fun r => r.getD j "") from rfl]
      rw [pyDistinct_allEq (p.getD j "") _ (by simp) (by simpa using hall)]
      rfl
    simpa [takeRun, zipStar] using hkey

lemma split_decomp (options : List String) (o : String) (ho : o ∈ options) :
    pySplitWs o = startOf options ++ midOf options o ++ (endOf options).reverse
    ∧ ((pySplitWs o).drop (startOf options).length).drop
        (((pySplitWs o).drop (startOf options).length).length
          - ((endOf options).reverse).length)
      = (endOf options).reverse := by
  have hmem : pySplitWs o ∈ optionsSplit options :=
    List.mem_map_of_mem pySplitWs ho
  obtain ⟨hsle, hstake⟩ := takeRun_take (optionsSplit options) (pySplitWs o) hmem
  have hsle2 : (startOf options).length ≤ (pySplitWs o).length := hsle
  have hstake2 : (pySplitWs o).take (startOf options).length = startOf options := hstake
  have hts2 : pySplitWs o
      = startOf options ++ (pySplitWs o).drop (startOf options).length := by
    conv_lhs => rw [← List.take_append_drop (startOf options).length (pySplitWs o)]
    rw [hstake2]
  have hmem2 : ((pySplitWs o).drop (startOf options).length).reverse
      ∈ optionsSplitReversed options := by
    rw [optionsSplitReversed]
    exact List.mem_map_of_mem _ hmem
  obtain ⟨hele, hetake⟩ := takeRun_take (optionsSplitReversed options) _ hmem2
  have hele2 : (endOf options).length
      ≤ ((pySplitWs o).drop (startOf options).length).reverse.length := hele
  have hetake2 : (((pySplitWs o).drop (startOf options).length).reverse).take
      (endOf options).length = endOf options := hetake
  obtain ⟨Z, hZeq⟩ : ∃ Z, (pySplitWs o).drop (startOf options).length
      = Z ++ (endOf options).reverse := by
    refine ⟨(((pySplitWs o).drop (startOf options).length).reverse.drop
      (endOf options).length).reverse, ?_⟩
    have h1 : ((pySplitWs o).drop (startOf options).length).reverse
        = endOf options
          ++ ((pySplitWs o).drop (startOf options).length).reverse.drop
              (endOf options).length := by
      conv_lhs => rw [← List.take_append_drop (endOf options).length
        ((pySplitWs o).drop (startOf options).length).reverse]
      rw [hetake2]
    have h2 := congrArg List.reverse h1
    simpa [List.reverse_append] using h2
  have hZlen : Z.length
      = ((pySplitWs o).drop (startOf options).length).length
        - (endOf options).length := by
    have := congrArg List.length hZeq
    simp only [List.length_append, List.length_reverse] at this
    omega
  have hmid : midOf options o = Z := by
    rw [midOf]
    have harith : (pySplitWs o).length - (endOf options).length
          - (startOf options).length = Z.length := by
      have h4 : (endOf options).length
          ≤ ((pySplitWs o).drop (startOf options).length).length := by
        simpa using hele2
      simp only [List.length_drop] at hZlen h4
      omega
    rw [harith]
    conv_lhs => rw [hZeq]
    rw [List.take_left]
  constructor
  · rw [hmid]
    conv_lhs => rw [hts2, hZeq]
    rw [List.append_assoc]
  · rw [List.length_reverse,
      show ((pySplitWs o).drop (startOf options).length).length
          - (endOf options).length = Z.length from hZlen.symm]
    conv_lhs => rw [hZeq]
    rw [List.drop_left]

/-- C3 counterexample: for options "a" and "a a" the token run ["a"] is a
trailing run shared by all options, yet simplify_options strips no trailing
run at all (end_words is empty), because the code computes the trailing run
only on the prefix-stripped remainders, which here are [] and ["a"]. -/
theorem simplify_suffix_counterexample :
    (fb₀.simplify_options "x ***mask***" ["a", "a a"]).2.2.2 = ""
    ∧ optionsSplit ["a", "a a"] = [["a"], ["a", "a"]]
    ∧ (["a"] : List String).drop ((["a"] : List String).length
        - (["a"] : List String).length) = ["a"]
    ∧ (["a", "a"] : List String).drop ((["a", "a"] : List String).length
        - (["a"] : List String).length) = ["a"]
    ∧ (["a"] : List String).length ≠ 0 := by
  refine ⟨by decide, by decide, by decide, by decide, by decide⟩

/-- C3 (amended): the concrete affix example of the specification holds, and
in general simplify_options strips the longest common leading token run
shared by all options, and then the longest common trailing token run shared
by all of the prefix-stripped remainders (not by the original options: when
leading and trailing runs would overlap, the leading run wins). -/
theorem simplify_affixes (options : List String) (hne : options ≠ []) :
    fb₀.simplify_options "I want ***mask***." ["to eat", "to drink"]
      = (["eat", "drink"], "I want to ***mask***.", "to", "")
    ∧ leadsAll (startOf options) (optionsSplit options)
    ∧ (∀ p, leadsAll p (optionsSplit options) → p.length ≤ (startOf options).length)
    ∧ trailsAll ((endOf options).reverse)
        ((optionsSplit options).map (fun x => x.drop (startOf options).length))
    ∧ (∀ p, trailsAll p ((optionsSplit options).map
          (fun x => x.drop (startOf options).length))
        → p.length ≤ (endOf options).length) := by
  have hne2 : optionsSplit options ≠ [] := by
    intro h
    exact hne (by simpa [optionsSplit] using h)
  refine ⟨by decide, ?_, ?_, ?_, ?_⟩
  · intro ts hts
    exact (takeRun_take (optionsSplit options) ts hts).2
  · intro p hp
    exact takeRun_max (optionsSplit options) hne2 p hp
  · intro r hr
    rcases List.mem_map.mp hr with ⟨ts, hts, rfl⟩
    rcases List.mem_map.mp hts with ⟨o, ho, rfl⟩
    exact (split_decomp options o ho).2
  · intro p hp
    have hne3 : optionsSplitReversed options ≠ [] := by
      intro h
      exact hne2 (by simpa [optionsSplitReversed] using h)
    have hp2 : leadsAll p.reverse (optionsSplitReversed options) := by
      intro r hr
      rw [optionsSplitReversed] at hr
      rcases List.mem_map.mp hr with ⟨ts, hts, rfl⟩
      have hmem : ts.drop (startOf options).length ∈ (optionsSplit options).map
          (fun x => x.drop (startOf options).length) :=
        List.mem_map_of_mem _ hts
      have h1 := hp _ hmem
      have h2 : ts.drop (startOf options).length
          = (ts.drop (startOf options).length).take
              ((ts.drop (startOf options).length).length - p.length) ++ p := by
        conv_lhs => rw [← List.take_append_drop
          ((ts.drop (startOf options).length).length - p.length)
          (ts.drop (startOf options).length)]
        rw [h1]
      have h3 := congrArg List.reverse h2
      rw [List.reverse_append] at h3
      rw [h3]
      rw [show p.reverse.length = (p.reverse).length from rfl]
      rw [List.take_left]
    have h4 := takeRun_max (optionsSplitReversed options) hne3 p.reverse hp2
    have h5 : p.length ≤ (takeRun (optionsSplitReversed options)).length := by
      rw [← List.length_reverse p]
      exact h4
    exact h5

/-- C3 witness: instantiation of the general affix statement at the concrete
option list of the specification example. -/
theorem simplify_affixes_witness :
    (fb₀.simplify_options "I want ***mask***." ["to eat", "to drink"]
      = (["eat", "drink"], "I want to ***mask***.", "to", ""))
    ∧ leadsAll (startOf ["to eat", "to drink"]) (optionsSplit ["to eat", "to drink"])
    ∧ (∀ p, leadsAll p (optionsSplit ["to eat", "to drink"])
        → p.length ≤ (startOf ["to eat", "to drink"]).length)
    ∧ trailsAll ((endOf ["to eat", "to drink"]).reverse)
        ((optionsSplit ["to eat", "to drink"]).map
          (fun x => x.drop (startOf ["to eat", "to drink"]).length))
    ∧ (∀ p, trailsAll p ((optionsSplit ["to eat", "to drink"]).map
          (fun x => x.drop (startOf ["to eat", "to drink"]).length))
        → p.length ≤ (endOf ["to eat", "to drink"]).length) :=
  simplify_affixes ["to eat", "to drink"] (by decide)

lemma sdata_append (s t : String) : (s ++ t).data = s.data ++ t.data := by
  cases s; cases t; rfl

lemma sappend_assoc (a b c : String) : a ++ b ++ c = a ++ (b ++ c) := by
  cases a; cases b; cases c
  show String.mk _ = String.mk _
  simp [show ∀ x y : String, x ++ y = String.mk (x.data ++ y.data) from fun x y => by
    cases x; cases y; rfl]

lemma foldr_wsFoldStep_chars (l : List Char) :
    ∀ w ∈ l.foldr wsFoldStep [], ∀ c ∈ w, c.isWhitespace = false := by
  induction l with
  | nil => simp
  | cons a l ih =>
    intro w hw c hc
    rw [List.foldr_cons] at hw
    by_cases ha : a.isWhitespace = true
    · rw [show wsFoldStep a (l.foldr wsFoldStep []) = [] :: l.foldr wsFoldStep [] from by
        unfold wsFoldStep; rw [if_pos ha]] at hw
      rcases List.mem_cons.mp hw with hw | hw
      · subst hw; simp at hc
      · exact ih w hw c hc
    · have ha2 : a.isWhitespace = false := by
        cases h : a.isWhitespace
        · rfl
        · exact absurd h ha
      cases hacc : l.foldr wsFoldStep [] with
      | nil =>
        rw [hacc] at hw
        rw [show wsFoldStep a [] = [[a]] from by
          unfold wsFoldStep; rw [if_neg ha]] at hw
        simp at hw
        subst hw
        simp at hc
        subst hc
        exact ha2
      | cons w0 ws0 =>
        rw [hacc] at hw
        rw [show wsFoldStep a (w0 :: ws0) = (a :: w0) :: ws0 from by
          unfold wsFoldStep; rw [if_neg ha]] at hw
        rcases List.mem_cons.mp hw with hw | hw
        · subst hw
          rcases List.mem_cons.mp hc with hc | hc
          · subst hc; exact ha2
          · exact ih w0 (by rw [hacc]; exact List.mem_cons_self w0 ws0) c hc
        · exact ih w (by rw [hacc]; exact List.mem_cons_of_mem w0 hw) c hc

lemma pySplitWs_isWord (s : String) : ∀ w ∈ pySplitWs s, IsWord w := by
  intro w hw
  rcases List.mem_map.mp hw with ⟨cl, hcl, hmk⟩
  rw [wsWords, List.mem_filter] at hcl
  constructor
  · rw [← hmk]
    show cl ≠ []
    intro h
    rw [h] at hcl
    simp at hcl
  · intro c hc
    rw [← hmk] at hc
    exact foldr_wsFoldStep_chars s.data cl hcl.1 c hc

lemma dropWhile_ws_eq_self (l : List Char)
    (h : ∀ c, l.head? = some c → c.isWhitespace = false) :
    l.dropWhile Char.isWhitespace = l := by
  cases l with
  | nil => rfl
  | cons a l =>
    rw [List.dropWhile_cons, if_neg (by simp [h a rfl])]

lemma mem_of_getLastQ (l : List Char) (c : Char) (h : l.getLast? = some c) : c ∈ l := by
  rw [← List.head?_reverse] at h
  have := List.mem_of_mem_head? (by rw [h]; exact rfl)
  exact (List.mem_reverse).mp this

lemma stripChars_cons_ws (c : Char) (l : List Char) (hc : c.isWhitespace = true) :
    stripChars (c :: l) = stripChars l := by
  unfold stripChars
  rw [List.dropWhile_cons, if_pos hc]

lemma stripChars_concat_ws (l : List Char) (c : Char) (hc : c.isWhitespace = true) :
    stripChars (l ++ [c]) = stripChars l := by
  induction l with
  | nil =>
    simp only [List.nil_append]
    unfold stripChars
    rw [show List.dropWhile Char.isWhitespace [c] = [] from by
      rw [List.dropWhile_cons, if_pos hc]; rfl]
    rfl
  | cons a l ih =>
    by_cases ha : a.isWhitespace = true
    · rw [List.cons_append, stripChars_cons_ws a _ ha, ih, stripChars_cons_ws a l ha]
    · have ha2 : a.isWhitespace = false := by
        cases h : a.isWhitespace
        · rfl
        · exact absurd h ha
      unfold stripChars
      rw [List.cons_append, List.dropWhile_cons, if_neg (by simp [ha2]),
        List.dropWhile_cons, if_neg (by simp [ha2])]
      rw [show (a :: (l ++ [c])).reverse = c :: (l.reverse ++ [a]) from by simp,
        List.dropWhile_cons, if_pos hc,
        show (a :: l).reverse = l.reverse ++ [a] from by simp]

lemma stripChars_eq_self (l : List Char)
    (h1 : ∀ c, l.head? = some c → c.isWhitespace = false)
    (h2 : ∀ c, l.getLast? = some c → c.isWhitespace = false) :
    stripChars l = l := by
  unfold stripChars
  rw [dropWhile_ws_eq_self l h1,
    dropWhile_ws_eq_self l.reverse (fun c hc => h2 c (by rwa [← List.head?_reverse])),
    List.reverse_reverse]

lemma pyJoin_cons_ne (sep x : String) (xs : List String) (h : xs ≠ []) :
    pyJoin sep (x :: xs) = x ++ sep ++ pyJoin sep xs := by
  cases xs with
  | nil => exact absurd rfl h
  | cons y ys => rfl

lemma pyJoin_append_sp (a b : List String) (ha : a ≠ []) (hb : b ≠ []) :
    pyJoin " " (a ++ b) = pyJoin " " a ++ " " ++ pyJoin " " b := by
  induction a with
  | nil => exact absurd rfl ha
  | cons x xs ih =>
    by_cases hxs : xs = []
    · subst hxs
      rw [List.cons_append, List.nil_append, pyJoin_cons_ne " " x b hb]
      rfl
    · rw [List.cons_append, pyJoin_cons_ne " " x (xs ++ b) (by simp [hxs]),
        ih hxs, pyJoin_cons_ne " " x xs hxs]
      simp [sappend_assoc]

lemma head_append_left (A B : List Char) (hA : A ≠ []) : (A ++ B).head? = A.head? := by
  cases A with
  | nil => exact absurd rfl hA
  | cons a l => rfl

lemma getLast_append_right (A B : List Char) (hB : B ≠ []) :
    (A ++ B).getLast? = B.getLast? := by
  rw [← List.head?_reverse, ← List.head?_reverse, List.reverse_append]
  cases hBr : B.reverse with
  | nil =>
    exact absurd (by simpa using congrArg List.reverse hBr) hB
  | cons c cs => rfl

lemma pyJoin_words_data_ne (L : List String) (hw : ∀ s ∈ L, IsWord s) (hne : L ≠ []) :
    (pyJoin " " L).data ≠ [] := by
  cases L with
  | nil => exact absurd rfl hne
  | cons x xs =>
    have hx : x.data ≠ [] := (hw x (List.mem_cons_self x xs)).1
    by_cases hxs : xs = []
    · subst hxs
      exact hx
    · rw [pyJoin_cons_ne " " x xs hxs, sdata_append, sdata_append]
      simp [hx]

lemma pyJoin_words_head (L : List String) (hw : ∀ s ∈ L, IsWord s) :
    ∀ c, (pyJoin " " L).data.head? = some c → c.isWhitespace = false := by
  cases L with
  | nil => intro c hc; simp [pyJoin] at hc
  | cons x xs =>
    intro c hc
    have hx := hw x (List.mem_cons_self x xs)
    have hmem : c ∈ x.data := by
      by_cases hxs : xs = []
      · subst hxs
        have hc2 : x.data.head? = some c := hc
        exact List.mem_of_mem_head? (by rw [hc2]; exact rfl)
      · rw [pyJoin_cons_ne " " x xs hxs, sdata_append, sdata_append,
          List.append_assoc, head_append_left x.data _ hx.1] at hc
        exact List.mem_of_mem_head? (by rw [hc]; exact rfl)
    exact hx.2 c hmem

lemma pyJoin_words_last (L : List String) (hw : ∀ s ∈ L, IsWord s) :
    ∀ c, (pyJoin " " L).data.getLast? = some c → c.isWhitespace = false := by
  induction L with
  | nil => intro c hc; simp [pyJoin] at hc
  | cons x xs ih =>
    intro c hc
    by_cases hxs : xs = []
    · subst hxs
      have hx := hw x (List.mem_cons_self x [])
      have hc2 : x.data.getLast? = some c := hc
      exact hx.2 c (mem_of_getLastQ x.data c hc2)
    · have hjd : (pyJoin " " xs).data ≠ [] :=
        pyJoin_words_data_ne xs (fun s hs => hw s (List.mem_cons_of_mem x hs)) hxs
      rw [pyJoin_cons_ne " " x xs hxs, sdata_append, sdata_append, List.append_assoc,
        getLast_append_right x.data _ (by
          rw [show (" " : String).data = [' '] from rfl]
          simp),
        getLast_append_right _ _ hjd] at hc
      exact ih (fun s hs => hw s (List.mem_cons_of_mem x hs)) c hc

lemma pyStrip_eq_of_data (Y Z : String) (h : stripChars Y.data = Z.data) :
    pyStrip Y = Z := by
  show (⟨stripChars Y.data⟩ : String) = Z
  rw [h]

lemma pyStrip_join_words (L : List String) (hw : ∀ s ∈ L, IsWord s) :
    pyStrip (pyJoin " " L) = pyJoin " " L := by
  by_cases hL : L = []
  · subst hL; rfl
  · exact pyStrip_eq_of_data _ _
      (stripChars_eq_self _ (pyJoin_words_head L hw) (pyJoin_words_last L hw))

lemma data_of_join3 (a b c : String) :
    (pyJoin " " [a, b, c]).data = a.data ++ ' ' :: (b.data ++ ' ' :: c.data) := by
  show ((a ++ " ") ++ ((b ++ " ") ++ c)).data = _
  rw [sdata_append, sdata_append, sdata_append, sdata_append,
    show (" " : String).data = [' '] from rfl]
  simp

lemma getLast_sp_append (X Y : List Char) (hY : Y ≠ []) :
    (X ++ ' ' :: Y).getLast? = Y.getLast? := by
  rw [show X ++ ' ' :: Y = (X ++ [' ']) ++ Y from by simp,
    getLast_append_right _ _ hY]

lemma stripChars_join_data (L : List String) (hw : ∀ s ∈ L, IsWord s) :
    stripChars (pyJoin " " L).data = (pyJoin " " L).data :=
  congrArg String.data (pyStrip_join_words L hw)

lemma strip_join_three (start mid endL : List String)
    (hw : ∀ s ∈ start ++ mid ++ endL, IsWord s)
    (hc : mid = [] → start = [] ∨ endL = []) :
    pyStrip (pyJoin " " [pyJoin " " start, pyStrip (pyJoin " " mid), pyJoin " " endL])
      = pyJoin " " (start ++ mid ++ endL) := by
  have hwS : ∀ s ∈ start, IsWord s := fun s hs => hw s (by simp [hs])
  have hwM : ∀ s ∈ mid, IsWord s := fun s hs => hw s (by simp [hs])
  have hwE : ∀ s ∈ endL, IsWord s := fun s hs => hw s (by simp [hs])
  rw [pyStrip_join_words mid hwM]
  by_cases hs : start = []
  · subst hs
    simp only [List.nil_append]
    by_cases he : endL = []
    · subst he
      simp only [List.append_nil]
      apply pyStrip_eq_of_data
      rw [data_of_join3, show (pyJoin " " ([] : List String)).data = [] from rfl]
      simp only [List.nil_append, List.append_nil]
      rw [stripChars_cons_ws _ _ (by decide),
        show (pyJoin " " mid).data ++ [' ']
          = (pyJoin " " mid).data ++ [' '] from rfl,
        stripChars_concat_ws _ _ (by decide)]
      exact stripChars_join_data mid hwM
    · apply pyStrip_eq_of_data
      rw [data_of_join3, show (pyJoin " " ([] : List String)).data = [] from rfl]
      simp only [List.nil_append]
      rw [stripChars_cons_ws _ _ (by decide)]
      by_cases hm : mid = []
      · subst hm
        rw [show (pyJoin " " ([] : List String)).data = [] from rfl]
        simp only [List.nil_append]
        rw [stripChars_cons_ws _ _ (by decide)]
        exact stripChars_join_data endL hwE
      · have hmd : (pyJoin " " mid).data ≠ [] := pyJoin_words_data_ne mid hwM hm
        have hed : (pyJoin " " endL).data ≠ [] := pyJoin_words_data_ne endL hwE he
        rw [stripChars_eq_self _
          (fun c hc2 => pyJoin_words_head mid hwM c
            (by rwa [head_append_left _ _ hmd] at hc2))
          (fun c hc2 => pyJoin_words_last endL hwE c
            (by rwa [getLast_sp_append _ _ hed] at hc2))]
        rw [pyJoin_append_sp mid endL hm he, sdata_append, sdata_append,
          show (" " : String).data = [' '] from rfl]
        simp
  · by_cases he : endL = []
    · subst he
      simp only [List.append_nil]
      apply pyStrip_eq_of_data
      rw [data_of_join3, show (pyJoin " " ([] : List String)).data = [] from rfl]
      by_cases hm : mid = []
      · subst hm
        simp only [List.append_nil]
        rw [show (pyJoin " " ([] : List String)).data = [] from rfl]
        simp only [List.nil_append]
        rw [show (pyJoin " " start).data ++ ' ' :: (' ' :: [])
            = (((pyJoin " " start).data ++ [' ']) ++ [' ']) from by simp,
          stripChars_concat_ws _ _ (by decide),
          stripChars_concat_ws _ _ (by decide)]
        exact stripChars_join_data start hwS
      · have hsd : (pyJoin " " start).data ≠ [] := pyJoin_words_data_ne start hwS hs
        have hmd : (pyJoin " " mid).data ≠ [] := pyJoin_words_data_ne mid hwM hm
        rw [show (pyJoin " " start).data ++ ' ' :: ((pyJoin " " mid).data ++ ' ' :: [])
            = (((pyJoin " " start).data ++ ' ' :: (pyJoin " " mid).data) ++ [' '])
            from by simp,
          stripChars_concat_ws _ _ (by decide)]
        rw [stripChars_eq_self _
          (fun c hc2 => pyJoin_words_head start hwS c
            (by rwa [head_append_left _ _ hsd] at hc2))
          (fun c hc2 => pyJoin_words_last mid hwM c
            (by rwa [getLast_sp_append _ _ hmd] at hc2))]
        rw [pyJoin_append_sp start mid hs hm, sdata_append, sdata_append,
          show (" " : String).data = [' '] from rfl]
        simp
    · have hm : mid ≠ [] := fun h => by
        rcases hc h with h2 | h2
        · exact hs h2
        · exact he h2
      have hsd : (pyJoin " " start).data ≠ [] := pyJoin_words_data_ne start hwS hs
      have hmd : (pyJoin " " mid).data ≠ [] := pyJoin_words_data_ne mid hwM hm
      have hed : (pyJoin " " endL).data ≠ [] := pyJoin_words_data_ne endL hwE he
      apply pyStrip_eq_of_data
      rw [data_of_join3]
      rw [stripChars_eq_self _
        (fun c hc2 => pyJoin_words_head start hwS c
          (by rwa [head_append_left _ _ hsd] at hc2))
        (fun c hc2 => pyJoin_words_last endL hwE c
          (by
            rw [getLast_sp_append _ _ (by simp),
              getLast_sp_append _ _ hed] at hc2
            exact hc2))]
      rw [pyJoin_append_sp (start ++ mid) endL (by simp [hs]) he,
        pyJoin_append_sp start mid hs hm, sdata_append, sdata_append,
        sdata_append, sdata_append, show (" " : String).data = [' '] from rfl]
      simp

lemma simplifiedOptions_map_mid (options : List String) :
    simplifiedOptions options
      = options.map (fun o => pyStrip (pyJoin " " (midOf options o))) := by
  simp [simplifiedOptions, optionsSplit, List.map_map, midOf, Function.comp]

lemma map_snd_zip_eq (scores : List ℚ) (ws : List String)
    (h : scores.length = ws.length) :
    (scores.zip ws).map (fun x => x.2) = ws := by
  induction scores generalizing ws with
  | nil =>
    cases ws with
    | nil => rfl
    | cons w ws2 => simp at h
  | cons a as ih =>
    cases ws with
    | nil => simp at h
    | cons w ws2 =>
      simp only [List.length_cons, Nat.succ.injEq] at h
      simp only [List.zip_cons_cons, List.map_cons]
      rw [ih ws2 h]

lemma rank_multi_perm (fb : FitBertT) (ms : String) (opts : List String) :
    (fb.rank_multi ms opts).Perm opts := by
  have h1 := (List.perm_insertionSort (fun p q : ℚ × String => q.1 ≤ p.1)
    ((opts.map (fun x => fb.scoreMulti ms x)).zip opts)).map (fun x : ℚ × String => x.2)
  rw [map_snd_zip_eq _ _ (by simp)] at h1
  exact h1

lemma rank_single_perm (fb : FitBertT) (ms : String) (ws r : List String)
    (h : fb.rank_single ms ws = some r) : r.Perm ws := by
  unfold FitBertT.rank_single at h
  split at h
  · next pre post heq =>
    rcases Option.map_eq_some'.mp h with ⟨ids, hids, hr⟩
    simp only [] at hr
    have hlen : ids.length = ws.length := by
      rw [optMapList_eq_some _ _ _ hids]
      simp
    have h1 := (List.perm_insertionSort (fun p q : ℚ × String => q.1 ≤ p.1)
      ((ids.map (fun x => fb.oracle.predict
        [(("[CLS]" :: fb.oracle.tokenize pre) ++ ["[MASK]"] ++ fb.oracle.tokenize post
          ++ ["[SEP]"]).map fb.oracle.tokenToId] 0
        ("[CLS]" :: fb.oracle.tokenize pre).length x)).zip ws)).map
      (fun x : ℚ × String => x.2)
    rw [map_snd_zip_eq _ _ (by simpa using hlen)] at h1
    rw [← hr]
    exact h1
  · simp at h

lemma rebuild_simplified (options : List String) (o : String) (ho : o ∈ options)
    (hn : pyJoin " " (pySplitWs o) = o)
    (hmid : startOf options ≠ [] → endOf options ≠ [] → midOf options o ≠ []) :
    pyStrip (pyJoin " " [start_words options,
      pyStrip (pyJoin " " (midOf options o)), end_words options]) = o := by
  have hdec := (split_decomp options o ho).1
  have hw : ∀ s ∈ startOf options ++ midOf options o ++ (endOf options).reverse,
      IsWord s := by
    rw [← hdec]
    exact pySplitWs_isWord o
  have hc : midOf options o = [] → startOf options = [] ∨ (endOf options).reverse = [] := by
    intro h
    by_cases hs : startOf options = []
    · exact Or.inl hs
    · by_cases he : endOf options = []
      · exact Or.inr (by rw [he]; rfl)
      · exact absurd h (hmid hs he)
  have hkey := strip_join_three (startOf options) (midOf options o)
    ((endOf options).reverse) hw hc
  rw [start_words, end_words]
  rw [hkey, ← hdec, hn]

/-- C1 counterexample: the option "to  eat" (two spaces) is a distinct input
option, the sentence holds exactly one placeholder and the option list is
non-empty, yet rank returns a list in which "to  eat" never appears: the
reconstruction joins tokens with single spaces, so the output set differs
from the distinct input set. -/
theorem rank_set_counterexample :
    fb₀.rank "I want ***mask***." ["to  eat", "to drink"]
      = some ["to eat", "to drink"]
    ∧ "to  eat" ∈ (["to  eat", "to drink"] : List String)
    ∧ "to  eat" ∉ (["to eat", "to drink"] : List String) := by decide

/-- C1 (amended): when every option is whitespace-normalized (it equals the
single-space join of its own tokens) and no option is consumed to an empty
token slice while both affixes are non-empty, every list rank returns is a
permutation of the deduplicated input options: each distinct input option
appears exactly once. -/
theorem rank_output_set (fb : FitBertT) (sent : String) (options out : List String)
    (hnorm : ∀ o ∈ options, pyJoin " " (pySplitWs o) = o)
    (hmid : startOf (pyDistinct options) ≠ [] → endOf (pyDistinct options) ≠ [] →
      ∀ o ∈ pyDistinct options, midOf (pyDistinct options) o ≠ [])
    (hout : fb.rank sent options = some out) :
    out.Perm (pyDistinct options) := by
  unfold FitBertT.rank at hout
  by_cases hlen : (pyDistinct options).length = 1
  · rw [if_pos hlen] at hout
    rw [Option.some.injEq] at hout
    rw [← hout]
  · rw [if_neg hlen] at hout
    simp only [FitBertT.simplify_options] at hout
    rcases Option.map_eq_some'.mp hout with ⟨ranked, hranked, hout2⟩
    have hperm : ranked.Perm (simplifiedOptions (pyDistinct options)) := by
      cases hm : FitBertT.is_multi (simplifiedOptions (pyDistinct options)) with
      | true =>
        rw [if_pos (by rw [hm])] at hranked
        rw [Option.some.injEq] at hranked
        rw [← hranked]
        exact rank_multi_perm fb _ _
      | false =>
        rw [if_neg (by rw [hm]; exact Bool.false_ne_true)] at hranked
        exact rank_single_perm fb _ _ ranked hranked
    rw [← hout2]
    refine (hperm.map _).trans ?_
    have heq : (simplifiedOptions (pyDistinct options)).map
        (fun x => pyStrip (pyJoin " "
          [start_words (pyDistinct options), x, end_words (pyDistinct options)]))
        = pyDistinct options := by
      rw [simplifiedOptions_map_mid, List.map_map]
      have hpt : ∀ o ∈ pyDistinct options,
          ((fun x => pyStrip (pyJoin " " [start_words (pyDistinct options), x,
            end_words (pyDistinct options)]))
            ∘ (fun o => pyStrip (pyJoin " " (midOf (pyDistinct options) o)))) o
          = o := by
        intro o ho
        have ho2 : o ∈ options := (mem_pyDistinct o options).mp ho
        exact rebuild_simplified (pyDistinct options) o ho (hnorm o ho2)
          (fun h1 h2 => hmid h1 h2 o ho)
      rw [List.map_congr_left hpt]
      simp
    rw [heq]

/-- C1 witness: at normalized options the conclusion is a permutation
identity on a concrete rank output. -/
theorem rank_output_set_witness :
    fb₀.rank "I want ***mask***." ["to eat", "to drink"]
      = some ["to eat", "to drink"]
    ∧ (["to eat", "to drink"] : List String).Perm
        (pyDistinct ["to eat", "to drink"]) :=
  ⟨by decide, rank_output_set fb₀ "I want ***mask***." ["to eat", "to drink"]
    ["to eat", "to drink"] (by decide) (by decide) (by decide)⟩
